import Mathlib

/-!
Verification of the mesh-meeting scheduler (`mesh_meeting.py`) against its
natural-language specification.

Times are modelled as minutes since the synthetic reference Monday 00:00
(Python's `datetime(1900, 1, 1)`); a weekday offset `d` contributes
`1440 * d` minutes.  Python `dict`s are modelled as insertion-ordered
association lists; Python `set`s of participants as lists whose membership
is the set membership.  Randomness (`random.shuffle`) is modelled by
universally quantifying over the shuffled lists handed to the matcher.
-/

set_option maxRecDepth 20000

namespace MeshMeeting

/-! ## Splitting helpers

`splitWs` models Python `str.split()` (split on runs of whitespace,
dropping empty pieces); `splitDash` models `str.split('-')` (split at every
dash, keeping empty pieces). -/

def splitWsAux : List Char → List Char → List (List Char)
  | [], acc => if acc = [] then [] else [acc.reverse]
  | c :: cs, acc =>
    if c.isWhitespace then
      if acc = [] then splitWsAux cs [] else acc.reverse :: splitWsAux cs []
    else splitWsAux cs (c :: acc)

def splitWs (s : String) : List (List Char) := splitWsAux s.toList []

def splitDashAux : List Char → List Char → List (List Char)
  | [], acc => [acc.reverse]
  | c :: cs, acc =>
    if c = '-' then acc.reverse :: splitDashAux cs [] else splitDashAux cs (c :: acc)

def splitDash (cs : List Char) : List (List Char) := splitDashAux cs []

/-! ## `convert_to_datetime` -/

/-- The `day_index` dict of `convert_to_datetime` (source line 62):
exact, case-sensitive weekday lookup. -/
def day_index : String → Option Nat
  | "Monday" => some 0
  | "Tuesday" => some 1
  | "Wednesday" => some 2
  | "Thursday" => some 3
  | "Friday" => some 4
  | _ => none

def digitVal (c : Char) : Nat := c.toNat - 48

/-- `[0-9]`, by code point (as Python's regex `\d` for ASCII input). -/
def isDigitChar (c : Char) : Bool := 48 ≤ c.toNat && c.toNat ≤ 57

/-- The tail of `strptime`'s `%p` directive: after hour and minute, the input
must consist of exactly `am`/`pm` (case-insensitive, per `re.IGNORECASE`),
with nothing following (`strptime` requires a full match). -/
def finishClock (h m : Nat) : List Char → Option Nat
  | [a, p] =>
    if (a = 'a' ∨ a = 'A') ∧ (p = 'm' ∨ p = 'M') then
      some (60 * (if h = 12 then 0 else h) + m)
    else if (a = 'p' ∨ a = 'P') ∧ (p = 'm' ∨ p = 'M') then
      some (60 * (if h = 12 then 12 else h + 12) + m)
    else none
  | _ => none

/-- `strptime`'s `%M` directive, regex `[0-5]\d|\d` with backtracking into
the continuation. -/
def parseMinTail (h : Nat) : List Char → Option Nat
  | c1 :: c2 :: rest =>
    if 48 ≤ c1.toNat ∧ c1.toNat ≤ 53 ∧ isDigitChar c2 then
      (finishClock h (digitVal c1 * 10 + digitVal c2) rest) <|>
        (finishClock h (digitVal c1) (c2 :: rest))
    else if isDigitChar c1 then finishClock h (digitVal c1) (c2 :: rest)
    else none
  | [c1] => if isDigitChar c1 then finishClock h (digitVal c1) [] else none
  | [] => none

def parseHourRest (h : Nat) : List Char → Option Nat
  | ':' :: rest => parseMinTail h rest
  | _ => none

/-- `strptime`'s `%I:%M%p` pattern applied to one clock-time component,
returning minutes after midnight.  `%I` is the regex `1[0-2]|0[1-9]|[1-9]`
tried in order with backtracking into the continuation. -/
def parseClock : List Char → Option Nat
  | c1 :: c2 :: rest =>
    (if c1 = '1' ∧ 48 ≤ c2.toNat ∧ c2.toNat ≤ 50 then
        parseHourRest (10 + digitVal c2) rest
      else if c1 = '0' ∧ 49 ≤ c2.toNat ∧ c2.toNat ≤ 57 then
        parseHourRest (digitVal c2) rest
      else none) <|>
      (if 49 ≤ c1.toNat ∧ c1.toNat ≤ 57 then parseHourRest (digitVal c1) (c2 :: rest) else none)
  | [c1] => if 49 ≤ c1.toNat ∧ c1.toNat ≤ 57 then parseHourRest (digitVal c1) [] else none
  | [] => none

/-- `convert_to_datetime` (source lines 59-67): split the input on
whitespace into weekday and time part, split the time part on `-`, look the
weekday up in `day_index`, parse both clock components with
`strptime("%w %I:%M%p")` (the `%w` digit never fails for indices 0-4 and
does not influence the resulting timestamp), and add the weekday offset to
both endpoints.  Any failure (wrong number of pieces, unknown weekday,
unparseable clock time) raises in Python; this is modelled by `none`.
There is no check relating the two endpoints. -/
def convert_to_datetime (time_range : String) : Option (Nat × Nat) :=
  match splitWs time_range with
  | [dayCs, timesCs] =>
    match splitDash timesCs with
    | [stCs, enCs] =>
      match day_index (String.mk dayCs) with
      | some d =>
        match parseClock stCs, parseClock enCs with
        | some sm, some em => some (1440 * d + sm, 1440 * d + em)
        | _, _ => none
      | none => none
    | _ => none
  | _ => none

/-! ## `strftime` formatting used for slot labels -/

/-- `%A` on the reference week: day 0 (1900-01-01) was a Monday. -/
def dayName : Nat → String
  | 0 => "Monday"
  | 1 => "Tuesday"
  | 2 => "Wednesday"
  | 3 => "Thursday"
  | 4 => "Friday"
  | 5 => "Saturday"
  | _ => "Sunday"

def pad2 (n : Nat) : String := if n < 10 then "0" ++ toString n else toString n

/-- `strftime('%I:%M%p')` of a minute timestamp: zero-padded 12-hour hour,
zero-padded minute, uppercase `AM`/`PM`. -/
def fmt12 (m : Nat) : String :=
  let h := m % 1440 / 60
  pad2 ((h + 11) % 12 + 1) ++ ":" ++ pad2 (m % 60) ++ (if h < 12 then "AM" else "PM")

/-- The slot-label format of source line 112:
`f"{current.strftime('%A %I:%M%p')}-{end.strftime('%I:%M%p')}"`. -/
def slotLabel (s e : Nat) : String :=
  dayName (s / 1440) ++ " " ++ fmt12 s ++ "-" ++ fmt12 e

/-! ## `generate_time_slots` -/

/-- The 15-minute walk of `generate_time_slots` (source lines 106-113):
from Monday 9:00 (minute 540) while strictly before Friday 12:00
(minute 540 + 4 days + 3 hours = 6480), i.e. 396 ticks. -/
def ticks : List Nat := (List.range 396).map (fun i => 540 + 15 * i)

/-- `generate_time_slots` (source lines 98-114): the ordered keys of the
returned dict, one label per tick whose hour-of-day lies in `[9, 17)`.
(The dict's values are all the empty set; key order is emission order.) -/
def generate_time_slots : List String :=
  (ticks.filter (fun t => decide (9 ≤ t % 1440 / 60) && decide (t % 1440 / 60 < 17))).map
    (fun t => slotLabel t (t + 15))

/-! ## Association lists: the model of Python `dict`s

`lookupA` is `dict.__getitem__` (as an `Option`), `insertA` is
`dict.__setitem__` (update in place, else append), `probe` is
`defaultdict.__getitem__`'s side effect of materialising a missing key. -/

def lookupA {α : Type} : List (String × α) → String → Option α
  | [], _ => none
  | e :: es, k => if e.1 = k then some e.2 else lookupA es k

def hasKey {α : Type} (l : List (String × α)) (k : String) : Bool :=
  (lookupA l k).isSome

def setA {α : Type} (l : List (String × α)) (k : String) (v : α) : List (String × α) :=
  l.map (fun e => if e.1 = k then (k, v) else e)

def insertA {α : Type} (l : List (String × α)) (k : String) (v : α) : List (String × α) :=
  if hasKey l k then setA l k v else l ++ [(k, v)]

/-! ## `generate_meetings` -/

/-- Inner map of the meeting assignment: slot label → partner. -/
abbrev Inner := List (String × String)

/-- `meetings = defaultdict(lambda: {})`: participant key → inner map. -/
abbrev Meetings := List (String × Inner)

/-- `defaultdict` probe: reading `meetings[p]` materialises `p ↦ {}` when
`p` is absent (source lines 183 and 193). -/
def probe (m : Meetings) (p : String) : Meetings :=
  if hasKey m p then m else m ++ [(p, [])]

/-- The current value of `meetings[p]` (empty for an absent key). -/
def innerOf (m : Meetings) (p : String) : Inner :=
  (lookupA m p).getD []

/-- `meetings[p][k] = q` (the key `p` is materialised first by the probe). -/
def assign (m : Meetings) (p k q : String) : Meetings :=
  let m1 := probe m p
  insertA m1 p (insertA (innerOf m1 p) k q)

/-- Python string comparison: lexicographic on code points. -/
def charListLt : List Char → List Char → Bool
  | [], [] => false
  | [], _ :: _ => true
  | _ :: _, [] => false
  | a :: as, b :: bs => if a = b then charListLt as bs else decide (a.toNat < b.toNat)

def strLt (p q : String) : Bool := charListLt p.toList q.toList

/-- The canonical pair key `f"{abc[0]}_{abc[1]}"` after `abc = [p0, p1];
abc.sort()` (source lines 181-183). -/
def pairKey (p q : String) : String :=
  if strLt q p then q ++ "_" ++ p else p ++ "_" ++ q

/-- Matcher state during the loop of `generate_meetings`: the meeting
assignment and the pair counter `match_count = defaultdict(lambda: 0)`
(whose key set is never observed, so a total function suffices). -/
structure MatchState where
  meetings : Meetings
  matchCount : String → Nat

def initState : MatchState := ⟨[], fun _ => 0⟩

/-- One guarded commit attempt (source lines 183-186 and 193-196) for the
trial pair `(p0, p1)` at slot `k`: Python's short-circuiting `and` probes
`meetings[p0]` always, `meetings[p1]` only if `p0` still has capacity, and
commits the meeting in both directions iff both have fewer than 3 meetings
and the pair counter is 0.  Returns the new state and whether it committed. -/
def tryPair (st : MatchState) (k p0 p1 : String) : MatchState × Bool :=
  let m1 := probe st.meetings p0
  if (innerOf m1 p0).length < 3 then
    let m2 := probe m1 p1
    if (innerOf m2 p1).length < 3 then
      if st.matchCount (pairKey p0 p1) = 0 then
        let m3 := assign m2 p0 k p1
        let m4 := assign m3 p1 k p0
        (⟨m4, fun c => if c = pairKey p0 p1 then st.matchCount c + 1 else st.matchCount c⟩,
          true)
      else (⟨m2, st.matchCount⟩, false)
    else (⟨m2, st.matchCount⟩, false)
  else (⟨m1, st.matchCount⟩, false)

/-- One iteration of the matching loop (source lines 176-196) for the slot
`t.1`: `t.2.1` is the shuffled participant list of the slot, from which the
trial pair is the first two elements; on a failed commit the loop reshuffles
once (`t.2.2`, a permutation of the same list) and retries. -/
def step (st : MatchState) (t : String × List String × List String) : MatchState :=
  let r := tryPair st t.1 (t.2.1.headD "") ((t.2.1.drop 1).headD "")
  if r.2 then r.1
  else (tryPair r.1 t.1 (t.2.2.headD "") ((t.2.2.drop 1).headD "")).1

/-- `generate_meetings` (source lines 157-197).  The shuffled candidate
slots with their two per-slot shuffle outcomes are passed in as `steps`:
`random.shuffle` makes the slot order and both participant orders
arbitrary, so theorems quantify over all of them.  Returns the final
`meetings` dict. -/
def generate_meetings (steps : List (String × List String × List String)) : Meetings :=
  (steps.foldl step initState).meetings

/-- `meetings[p][k] == q` in the final assignment. -/
def assigned (m : Meetings) (p k q : String) : Prop :=
  lookupA (innerOf m p) k = some q

instance (m : Meetings) (p k q : String) : Decidable (assigned m p k q) := by
  unfold assigned
  infer_instance

/-! ## `populate_time_slots` and `calculate_matches` -/

/-- `time_slots[slot].add(person)`: Python set insertion, modelled on a
duplicate-free list. -/
def addPerson (ps : List String) (p : String) : List String :=
  if p ∈ ps then ps else ps ++ [p]

/-- The inner window loop of `populate_time_slots` (source lines 134-137)
for one person `p` and one slot parsed to `sr`: parse each declared window
and add `p` to the slot's set when
`slot_start < avail_end and slot_end > avail_start`. -/
def windowLoop (p : String) (sr : Nat × Nat) : List String → List String → Option (List String)
  | [], ps => some ps
  | w :: ws, ps =>
    match convert_to_datetime w with
    | none => none
    | some wr =>
      windowLoop p sr ws (if sr.1 < wr.2 ∧ sr.2 > wr.1 then addPerson ps p else ps)

/-- The slot loop of `populate_time_slots` (source lines 132-137) for one
person: parse each slot label, then run the window loop on its set. -/
def personStep (p : String) (avail : List String) :
    List (String × List String) → Option (List (String × List String))
  | [] => some []
  | e :: rest =>
    match convert_to_datetime e.1 with
    | none => none
    | some sr =>
      match windowLoop p sr avail e.2 with
      | none => none
      | some ps =>
        match personStep p avail rest with
        | none => none
        | some rest' => some ((e.1, ps) :: rest')

/-- `populate_time_slots` (source lines 116-138): outer loop over the
schedule's participants (key and availability-window list), threading the
slot dict.  A parse failure anywhere raises in Python, modelled by `none`. -/
def populate_time_slots (time_slots : List (String × List String)) :
    List (String × List String) → Option (List (String × List String))
  | [] => some time_slots
  | (p, avail) :: rest =>
    match personStep p avail time_slots with
    | none => none
    | some ts' => populate_time_slots ts' rest

/-- `calculate_matches` (source lines 141-155): the slots whose
availability set has more than one member, in dict order. -/
def calculate_matches (time_slots : List (String × List String)) : List String :=
  (time_slots.filter (fun e => decide (1 < e.2.length))).map (fun e => e.1)

/-! ## Association-list lemmas -/

theorem hasKey_false_iff {α : Type} (l : List (String × α)) (k : String) :
    hasKey l k = false ↔ lookupA l k = none := by
  unfold hasKey
  cases lookupA l k <;> simp

theorem lookupA_append {α : Type} (l1 l2 : List (String × α)) (q : String) :
    lookupA (l1 ++ l2) q = (lookupA l1 q <|> lookupA l2 q) := by
  induction l1 with
  | nil => simp [lookupA]
  | cons e es ih => by_cases h : e.1 = q <;> simp [lookupA, h, ih]

theorem lookupA_setA_self {α : Type} (l : List (String × α)) (k : String) (v : α) :
    lookupA (setA l k v) k = (lookupA l k).map (fun _ => v) := by
  induction l with
  | nil => simp [lookupA, setA]
  | cons e es ih =>
    by_cases h : e.1 = k
    · simp [lookupA, setA, h]
    · simp only [setA, List.map_cons, if_neg h, lookupA]
      simpa [setA] using ih

theorem lookupA_setA_ne {α : Type} (l : List (String × α)) (k : String) (v : α)
    (q : String) (h : q ≠ k) : lookupA (setA l k v) q = lookupA l q := by
  induction l with
  | nil => simp [lookupA, setA]
  | cons e es ih =>
    by_cases he : e.1 = k
    · have : ¬ (k = q) := fun hkq => h hkq.symm
      simp [lookupA, setA, he, this] at *
      exact ih
    · simp [lookupA, setA, he] at *
      by_cases he2 : e.1 = q <;> simp [he2, ih]

theorem lookupA_insertA_self {α : Type} (l : List (String × α)) (k : String) (v : α) :
    lookupA (insertA l k v) k = some v := by
  unfold insertA
  split
  next h =>
    cases hl : lookupA l k with
    | none => simp [hasKey, hl] at h
    | some w => rw [lookupA_setA_self, hl]; rfl
  next h =>
    have hl : lookupA l k = none := (hasKey_false_iff l k).mp (by simpa using h)
    rw [lookupA_append, hl]
    simp [lookupA]

theorem lookupA_insertA_ne {α : Type} (l : List (String × α)) (k : String) (v : α)
    (q : String) (h : q ≠ k) : lookupA (insertA l k v) q = lookupA l q := by
  unfold insertA
  split
  next => exact lookupA_setA_ne l k v q h
  next =>
    rw [lookupA_append]
    have : k ≠ q := fun hkq => h hkq.symm
    simp [lookupA, this]

theorem length_setA {α : Type} (l : List (String × α)) (k : String) (v : α) :
    (setA l k v).length = l.length := by
  simp [setA]

theorem length_insertA_le {α : Type} (l : List (String × α)) (k : String) (v : α) :
    (insertA l k v).length ≤ l.length + 1 := by
  unfold insertA
  split
  · rw [length_setA]; omega
  · simp

theorem length_insertA_of_hasKey {α : Type} (l : List (String × α)) (k : String) (v : α)
    (h : hasKey l k = true) : (insertA l k v).length = l.length := by
  simp [insertA, h, length_setA]

theorem hasKey_insertA_self {α : Type} (l : List (String × α)) (k : String) (v : α) :
    hasKey (insertA l k v) k = true := by
  simp [hasKey, lookupA_insertA_self]

/-! ## `probe` / `innerOf` / `assign` lemmas -/

theorem innerOf_probe (m : Meetings) (p q : String) :
    innerOf (probe m p) q = innerOf m q := by
  unfold probe
  split
  next => rfl
  next h =>
    have hl : lookupA m p = none := (hasKey_false_iff m p).mp (by simpa using h)
    unfold innerOf
    rw [lookupA_append]
    by_cases hpq : p = q
    · subst hpq; rw [hl]; simp [lookupA]
    · simp [lookupA, hpq]

theorem innerOf_assign_self (m : Meetings) (p k q : String) :
    innerOf (assign m p k q) p = insertA (innerOf m p) k q := by
  show innerOf (insertA (probe m p) p (insertA (innerOf (probe m p) p) k q)) p = _
  rw [innerOf_probe]
  unfold innerOf
  rw [lookupA_insertA_self]
  rfl

theorem innerOf_assign_ne (m : Meetings) (p k q x : String) (h : x ≠ p) :
    innerOf (assign m p k q) x = innerOf m x := by
  show innerOf (insertA (probe m p) p (insertA (innerOf (probe m p) p) k q)) x = _
  unfold innerOf
  rw [lookupA_insertA_ne _ _ _ _ h]
  have := innerOf_probe m p x
  unfold innerOf at this
  exact this

/-! ## `charListLt` / `pairKey` lemmas -/

theorem char_toNat_inj {a b : Char} (h : a.toNat = b.toNat) : a = b := by
  have h2 := congrArg Char.ofNat h
  rwa [Char.ofNat_toNat, Char.ofNat_toNat] at h2

theorem charListLt_asymm : ∀ a b, charListLt a b = true → charListLt b a = false
  | [], [] => by simp [charListLt]
  | [], _ :: _ => by simp [charListLt]
  | _ :: _, [] => by simp [charListLt]
  | a :: as, b :: bs => by
    by_cases hab : a = b
    · subst hab
      simp only [charListLt, if_pos rfl]
      exact charListLt_asymm as bs
    · have hba : ¬ b = a := fun h => hab h.symm
      simp only [charListLt, if_neg hab, if_neg hba]
      intro h
      simp at h ⊢
      omega

theorem charListLt_conn : ∀ a b, charListLt a b = false → charListLt b a = false → a = b
  | [], [], _, _ => rfl
  | [], _ :: _, h, _ => by simp [charListLt] at h
  | _ :: _, [], _, h => by simp [charListLt] at h
  | a :: as, b :: bs, h1, h2 => by
    by_cases hab : a = b
    · subst hab
      simp only [charListLt, if_pos rfl] at h1 h2
      rw [charListLt_conn as bs h1 h2]
    · have hba : ¬ b = a := fun h => hab h.symm
      simp only [charListLt, if_neg hab, if_neg hba] at h1 h2
      simp at h1 h2
      exact absurd (char_toNat_inj (by omega)) hab

theorem string_toList_inj {p q : String} (h : p.toList = q.toList) : p = q := by
  cases p with
  | mk d1 =>
    cases q with
    | mk d2 => exact congrArg String.mk h

theorem pairKey_comm (p q : String) : pairKey p q = pairKey q p := by
  unfold pairKey
  by_cases h1 : strLt q p = true
  · have h2 : strLt p q = false := charListLt_asymm _ _ h1
    rw [if_pos h1, if_neg (by simp [h2])]
  · have h1' : strLt q p = false := by simpa using h1
    by_cases h2 : strLt p q = true
    · rw [if_neg h1, if_pos h2]
    · have h2' : strLt p q = false := by simpa using h2
      have : p.toList = q.toList := charListLt_conn _ _ h2' h1'
      rw [string_toList_inj this]

/-! ## `tryPair` characterisation -/

theorem tryPair_false (st : MatchState) (k p0 p1 : String)
    (h : (tryPair st k p0 p1).2 = false) :
    (∀ x, innerOf (tryPair st k p0 p1).1.meetings x = innerOf st.meetings x) ∧
      (tryPair st k p0 p1).1.matchCount = st.matchCount := by
  simp only [tryPair] at h ⊢
  split_ifs at h ⊢ with h1 h2 h3
  · exact ⟨fun x => by rw [innerOf_probe, innerOf_probe], rfl⟩
  · exact ⟨fun x => by rw [innerOf_probe, innerOf_probe], rfl⟩
  · exact ⟨fun x => by rw [innerOf_probe], rfl⟩

theorem tryPair_true (st : MatchState) (k p0 p1 : String)
    (h : (tryPair st k p0 p1).2 = true) :
    (innerOf st.meetings p0).length < 3 ∧
      (innerOf st.meetings p1).length < 3 ∧
      st.matchCount (pairKey p0 p1) = 0 ∧
      (∀ c, (tryPair st k p0 p1).1.matchCount c =
        if c = pairKey p0 p1 then st.matchCount c + 1 else st.matchCount c) ∧
      (∀ x, x ≠ p0 → x ≠ p1 →
        innerOf (tryPair st k p0 p1).1.meetings x = innerOf st.meetings x) ∧
      (∀ x k2, k2 ≠ k → lookupA (innerOf (tryPair st k p0 p1).1.meetings x) k2
          = lookupA (innerOf st.meetings x) k2) ∧
      lookupA (innerOf (tryPair st k p0 p1).1.meetings p1) k = some p0 ∧
      (p0 ≠ p1 → lookupA (innerOf (tryPair st k p0 p1).1.meetings p0) k = some p1) ∧
      (∀ x, (innerOf (tryPair st k p0 p1).1.meetings x).length
          ≤ (innerOf st.meetings x).length + 1) := by
  simp only [tryPair] at h ⊢
  split_ifs at h ⊢ with h1 h2 h3
  case pos =>
    rw [innerOf_probe] at h1
    rw [innerOf_probe, innerOf_probe] at h2
    have hm2 : ∀ x, innerOf (probe (probe st.meetings p0) p1) x = innerOf st.meetings x :=
      fun x => by rw [innerOf_probe, innerOf_probe]
    refine ⟨h1, h2, h3, fun c => rfl, ?_, ?_, ?_, ?_, ?_⟩
    · intro x hx0 hx1
      rw [innerOf_assign_ne _ _ _ _ _ hx1, innerOf_assign_ne _ _ _ _ _ hx0, hm2]
    · intro x k2 hk2
      by_cases hxp1 : x = p1
      · subst hxp1
        rw [innerOf_assign_self, lookupA_insertA_ne _ _ _ _ hk2]
        by_cases hxp0 : x = p0
        · subst hxp0
          rw [innerOf_assign_self, lookupA_insertA_ne _ _ _ _ hk2, hm2]
        · rw [innerOf_assign_ne _ _ _ _ _ hxp0, hm2]
      · rw [innerOf_assign_ne _ _ _ _ _ hxp1]
        by_cases hxp0 : x = p0
        · subst hxp0
          rw [innerOf_assign_self, lookupA_insertA_ne _ _ _ _ hk2, hm2]
        · rw [innerOf_assign_ne _ _ _ _ _ hxp0, hm2]
    · rw [innerOf_assign_self, lookupA_insertA_self]
    · intro hne
      have hne' : p0 ≠ p1 := hne
      rw [innerOf_assign_ne _ _ _ _ _ hne', innerOf_assign_self, lookupA_insertA_self]
    · intro x
      by_cases hxp1 : x = p1
      · subst hxp1
        rw [innerOf_assign_self]
        by_cases hxp0 : x = p0
        · subst hxp0
          rw [innerOf_assign_self]
          rw [length_insertA_of_hasKey _ _ _ (hasKey_insertA_self _ _ _)]
          calc (insertA (innerOf (probe (probe st.meetings x) x) x) k x).length
              ≤ (innerOf (probe (probe st.meetings x) x) x).length + 1 := length_insertA_le _ _ _
            _ = (innerOf st.meetings x).length + 1 := by rw [hm2]
        · rw [innerOf_assign_ne _ _ _ _ _ hxp0]
          calc (insertA (innerOf (probe (probe st.meetings p0) x) x) k p0).length
              ≤ (innerOf (probe (probe st.meetings p0) x) x).length + 1 := length_insertA_le _ _ _
            _ = (innerOf st.meetings x).length + 1 := by rw [hm2]
      · rw [innerOf_assign_ne _ _ _ _ _ hxp1]
        by_cases hxp0 : x = p0
        · subst hxp0
          rw [innerOf_assign_self]
          calc (insertA (innerOf (probe (probe st.meetings x) p1) x) k p1).length
              ≤ (innerOf (probe (probe st.meetings x) p1) x).length + 1 := length_insertA_le _ _ _
            _ = (innerOf st.meetings x).length + 1 := by rw [hm2]
        · rw [innerOf_assign_ne _ _ _ _ _ hxp0, hm2]
          omega

theorem tryPair_lookup_cases (st : MatchState) (k p0 p1 : String)
    (h : (tryPair st k p0 p1).2 = true) (x k2 y : String)
    (hl : lookupA (innerOf (tryPair st k p0 p1).1.meetings x) k2 = some y) :
    lookupA (innerOf st.meetings x) k2 = some y ∨
      (k2 = k ∧ ((x = p1 ∧ y = p0) ∨ (x = p0 ∧ y = p1))) := by
  obtain ⟨-, -, -, -, hL1, hL2, hL3, hL4, -⟩ := tryPair_true st k p0 p1 h
  by_cases hk2 : k2 = k
  · subst hk2
    by_cases hxp1 : x = p1
    · subst hxp1
      rw [hL3] at hl
      exact Or.inr ⟨rfl, Or.inl ⟨rfl, (Option.some_inj.mp hl).symm⟩⟩
    · by_cases hxp0 : x = p0
      · subst hxp0
        rw [hL4 hxp1] at hl
        exact Or.inr ⟨rfl, Or.inr ⟨rfl, (Option.some_inj.mp hl).symm⟩⟩
      · left
        rw [← hL1 x hxp0 hxp1]
        exact hl
  · left
    rw [← hL2 x k2 hk2]
    exact hl

/-! ## C1: per-person capacity invariant -/

/-- Loop invariant: no participant ever holds more than 3 committed slots. -/
def CapInv (st : MatchState) : Prop :=
  ∀ p, (innerOf st.meetings p).length ≤ 3

theorem tryPair_capInv (st : MatchState) (k p0 p1 : String) (hinv : CapInv st) :
    CapInv (tryPair st k p0 p1).1 := by
  cases hb : (tryPair st k p0 p1).2
  case false =>
    obtain ⟨hm, -⟩ := tryPair_false st k p0 p1 hb
    intro x
    rw [hm x]
    exact hinv x
  case true =>
    obtain ⟨h1, h2, -, -, hL1, -, -, -, hL5⟩ := tryPair_true st k p0 p1 hb
    intro x
    by_cases hxp0 : x = p0
    · subst hxp0
      have := hL5 x
      omega
    · by_cases hxp1 : x = p1
      · subst hxp1
        have := hL5 x
        omega
      · rw [hL1 x hxp0 hxp1]
        exact hinv x

theorem step_capInv (st : MatchState) (t : String × List String × List String)
    (hinv : CapInv st) : CapInv (step st t) := by
  simp only [step]
  split
  · exact tryPair_capInv _ _ _ _ hinv
  · exact tryPair_capInv _ _ _ _ (tryPair_capInv _ _ _ _ hinv)

theorem capInv_init : CapInv initState := by
  intro p
  simp [initState, innerOf, lookupA]

theorem foldl_capInv (steps : List (String × List String × List String)) :
    ∀ st : MatchState, CapInv st → CapInv (steps.foldl step st) := by
  induction steps with
  | nil => exact fun st h => h
  | cons t rest ih => exact fun st h => ih _ (step_capInv st t h)

/-! ## C2: per-pair invariant -/

/-- Loop invariant behind the per-pair cap: every committed assignment is
accounted in the pair counter, and no (participant, partner) pair appears
at two different slots. -/
def PairInv (st : MatchState) : Prop :=
  (∀ p k q, assigned st.meetings p k q → 1 ≤ st.matchCount (pairKey p q)) ∧
    (∀ p q k1 k2, assigned st.meetings p k1 q → assigned st.meetings p k2 q → k1 = k2)

theorem tryPair_pairInv (st : MatchState) (k p0 p1 : String) (hinv : PairInv st) :
    PairInv (tryPair st k p0 p1).1 := by
  cases hb : (tryPair st k p0 p1).2
  case false =>
    obtain ⟨hm, hc⟩ := tryPair_false st k p0 p1 hb
    constructor
    · intro p k' q ha
      rw [hc]
      refine hinv.1 p k' q ?_
      unfold assigned at ha ⊢
      rw [hm p] at ha
      exact ha
    · intro p q k1 k2 ha1 ha2
      unfold assigned at ha1 ha2
      rw [hm p] at ha1 ha2
      exact hinv.2 p q k1 k2 ha1 ha2
  case true =>
    obtain ⟨-, -, hcnt0, hMC, -, -, -, -, -⟩ := tryPair_true st k p0 p1 hb
    constructor
    · intro p k' q ha
      rcases tryPair_lookup_cases st k p0 p1 hb p k' q ha with hold | ⟨-, hpq⟩
      · have := hinv.1 p k' q hold
        rw [hMC (pairKey p q)]
        split <;> omega
      · rcases hpq with ⟨hp, hq⟩ | ⟨hp, hq⟩
        · rw [hp, hq, hMC (pairKey p1 p0), pairKey_comm p1 p0]
          simp
        · rw [hp, hq, hMC (pairKey p0 p1)]
          simp
    · intro p q k1 k2 ha1 ha2
      rcases tryPair_lookup_cases st k p0 p1 hb p k1 q ha1 with ho1 | ⟨hk1, hpq1⟩ <;>
        rcases tryPair_lookup_cases st k p0 p1 hb p k2 q ha2 with ho2 | ⟨hk2, hpq2⟩
      · exact hinv.2 p q k1 k2 ho1 ho2
      · exfalso
        have hc1 := hinv.1 p k1 q ho1
        rcases hpq2 with ⟨hp, hq⟩ | ⟨hp, hq⟩
        · rw [hp, hq, pairKey_comm p1 p0] at hc1
          omega
        · rw [hp, hq] at hc1
          omega
      · exfalso
        have hc2 := hinv.1 p k2 q ho2
        rcases hpq1 with ⟨hp, hq⟩ | ⟨hp, hq⟩
        · rw [hp, hq, pairKey_comm p1 p0] at hc2
          omega
        · rw [hp, hq] at hc2
          omega
      · rw [hk1, hk2]

theorem step_pairInv (st : MatchState) (t : String × List String × List String)
    (hinv : PairInv st) : PairInv (step st t) := by
  simp only [step]
  split
  · exact tryPair_pairInv _ _ _ _ hinv
  · exact tryPair_pairInv _ _ _ _ (tryPair_pairInv _ _ _ _ hinv)

theorem pairInv_init : PairInv initState := by
  constructor
  · intro p k q ha
    simp [assigned, initState, innerOf, lookupA] at ha
  · intro p q k1 k2 ha1 ha2
    simp [assigned, initState, innerOf, lookupA] at ha1

theorem foldl_pairInv (steps : List (String × List String × List String)) :
    ∀ st : MatchState, PairInv st → PairInv (steps.foldl step st) := by
  induction steps with
  | nil => exact fun st h => h
  | cons t rest ih => exact fun st h => ih _ (step_pairInv st t h)

/-! ## C3: symmetry invariant -/

/-- The meeting assignment is symmetric. -/
def SymAssign (m : Meetings) : Prop :=
  ∀ a s b, assigned m a s b ↔ assigned m b s a

theorem tryPair_commit_sym (st : MatchState) (k p0 p1 : String)
    (hb : (tryPair st k p0 p1).2 = true)
    (hsym : SymAssign st.meetings)
    (hfreshk : ∀ a b, ¬ assigned st.meetings a k b) :
    SymAssign (tryPair st k p0 p1).1.meetings ∧
      (∀ a s b, assigned (tryPair st k p0 p1).1.meetings a s b →
        s = k ∨ assigned st.meetings a s b) := by
  obtain ⟨-, -, -, -, -, hL2, hL3, hL4, -⟩ := tryPair_true st k p0 p1 hb
  set M := (tryPair st k p0 p1).1.meetings with hMdef
  have hAtK : ∀ a b, assigned M a k b ↔
      ((a = p1 ∧ b = p0) ∨ (a = p0 ∧ b = p1)) := by
    intro a b
    constructor
    · intro ha
      rcases tryPair_lookup_cases st k p0 p1 hb a k b ha with hold | ⟨-, hc⟩
      · exact absurd hold (hfreshk a b)
      · exact hc
    · rintro (⟨ha1, hb1⟩ | ⟨ha1, hb1⟩)
      · rw [ha1, hb1]
        exact hL3
      · rw [ha1, hb1]
        by_cases h01 : p0 = p1
        · rw [h01]
          rw [h01] at hL3
          exact hL3
        · exact hL4 h01
  constructor
  · intro a s b
    by_cases hs : s = k
    · subst hs
      rw [hAtK, hAtK]
      tauto
    · unfold assigned
      rw [hL2 a s hs, hL2 b s hs]
      exact hsym a s b
  · intro a s b ha
    by_cases hs : s = k
    · exact Or.inl hs
    · right
      unfold assigned at ha ⊢
      rw [hL2 a s hs] at ha
      exact ha

theorem step_sym (st : MatchState) (t : String × List String × List String)
    (hsym : SymAssign st.meetings)
    (hfreshk : ∀ a b, ¬ assigned st.meetings a t.1 b) :
    SymAssign (step st t).meetings ∧
      (∀ a s b, assigned (step st t).meetings a s b →
        s = t.1 ∨ assigned st.meetings a s b) := by
  simp only [step]
  cases hb1 : (tryPair st t.1 (t.2.1.headD "") ((t.2.1.drop 1).headD "")).2
  case true =>
    simp only [hb1, if_true]
    exact tryPair_commit_sym st t.1 _ _ hb1 hsym hfreshk
  case false =>
    simp only [hb1, Bool.false_eq_true, if_false]
    obtain ⟨hm, -⟩ := tryPair_false st t.1 _ _ hb1
    have hsym1 : SymAssign (tryPair st t.1 (t.2.1.headD "") ((t.2.1.drop 1).headD "")).1.meetings := by
      intro a s b
      unfold assigned
      rw [hm a, hm b]
      exact hsym a s b
    have hfreshk1 : ∀ a b,
        ¬ assigned (tryPair st t.1 (t.2.1.headD "") ((t.2.1.drop 1).headD "")).1.meetings a t.1 b := by
      intro a b ha
      unfold assigned at ha
      rw [hm a] at ha
      exact hfreshk a b ha
    cases hb2 : (tryPair (tryPair st t.1 (t.2.1.headD "") ((t.2.1.drop 1).headD "")).1 t.1
        (t.2.2.headD "") ((t.2.2.drop 1).headD "")).2
    case true =>
      obtain ⟨hs2, hc2⟩ := tryPair_commit_sym _ t.1 _ _ hb2 hsym1 hfreshk1
      refine ⟨hs2, ?_⟩
      intro a s b ha
      rcases hc2 a s b ha with h | h
      · exact Or.inl h
      · right
        unfold assigned at h ⊢
        rw [hm a] at h
        exact h
    case false =>
      obtain ⟨hm2, -⟩ := tryPair_false _ t.1 _ _ hb2
      constructor
      · intro a s b
        unfold assigned
        rw [hm2 a, hm2 b, hm a, hm b]
        exact hsym a s b
      · intro a s b ha
        right
        unfold assigned at ha ⊢
        rw [hm2 a, hm a] at ha
        exact ha

theorem foldl_sym (steps : List (String × List String × List String)) :
    ∀ st : MatchState, (steps.map (fun t => t.1)).Nodup →
      SymAssign st.meetings →
      (∀ a s b, assigned st.meetings a s b → s ∉ steps.map (fun t => t.1)) →
      SymAssign (steps.foldl step st).meetings := by
  induction steps with
  | nil => exact fun st _ hsym _ => hsym
  | cons t rest ih =>
    intro st hnd hsym hfresh
    simp only [List.map_cons, List.nodup_cons] at hnd
    obtain ⟨hk_notin, hnd'⟩ := hnd
    have hfreshk : ∀ a b, ¬ assigned st.meetings a t.1 b := fun a b ha =>
      (hfresh a t.1 b ha) (List.mem_cons_self _ _)
    obtain ⟨hsym', hcases⟩ := step_sym st t hsym hfreshk
    refine ih (step st t) hnd' hsym' ?_
    intro a s b ha hmem
    rcases hcases a s b ha with rfl | hold
    · exact hk_notin hmem
    · exact (hfresh a s b hold) (List.mem_cons_of_mem _ hmem)

theorem sym_init : SymAssign initState.meetings := by
  intro a s b
  simp [assigned, initState, innerOf, lookupA]

theorem fresh_init (steps : List (String × List String × List String)) :
    ∀ a s b, assigned initState.meetings a s b → s ∉ steps.map (fun t => t.1) := by
  intro a s b ha
  simp [assigned, initState, innerOf, lookupA] at ha

theorem perm_pair_cases {α : Type} {l : List α} {a b : α} (h : l.Perm [a, b]) :
    l = [a, b] ∨ l = [b, a] := by
  have hlen := h.length_eq
  match l, h, hlen with
  | [x, y], h, _ =>
    have hx : x ∈ [a, b] := h.subset (List.mem_cons_self _ _)
    rcases List.mem_pair.mp hx with rfl | rfl
    · have h2 : [y].Perm [b] := h.cons_inv
      rw [List.perm_singleton.mp h2]
      exact Or.inl rfl
    · have h' : (x :: [y]).Perm (x :: [a]) := h.trans (List.Perm.swap x a [])
      have h2 : [y].Perm [a] := h'.cons_inv
      rw [List.perm_singleton.mp h2]
      exact Or.inr rfl

/-! ## Claim theorems for the matcher -/

/-- C1: for every schedule input and every sequence of random shuffle
outcomes, no participant key of the meeting assignment returned by
`generate_meetings` is mapped to more than `max_meetings_per_person = 3`
slot-to-partner entries. -/
theorem generate_meetings_max_three_per_person
    (steps : List (String × List String × List String)) (p : String) :
    (innerOf (generate_meetings steps) p).length ≤ 3 :=
  foldl_capInv steps initState capInv_init p

/-- C2: for every schedule input and every sequence of random shuffle
outcomes, `generate_meetings` schedules each pair at most
`max_meetings_per_pair = 1` time: the same participant is never assigned
the same partner at two distinct slots. -/
theorem generate_meetings_pair_at_most_once
    (steps : List (String × List String × List String)) (p q k1 k2 : String)
    (h1 : assigned (generate_meetings steps) p k1 q)
    (h2 : assigned (generate_meetings steps) p k2 q) : k1 = k2 :=
  (foldl_pairInv steps initState pairInv_init).2 p q k1 k2 h1 h2

theorem generate_meetings_pair_at_most_once_witness :
    assigned (generate_meetings [("mon", ["p", "q"], ["p", "q"])]) "p" "mon" "q" ∧
      ("mon" : String) = "mon" :=
  ⟨by decide,
    generate_meetings_pair_at_most_once [("mon", ["p", "q"], ["p", "q"])] "p" "q" "mon" "mon"
      (by decide) (by decide)⟩

/-- C3: for every schedule input (whose candidate slots, being dict keys,
are distinct) and every sequence of random shuffle outcomes, the meeting
assignment returned by `generate_meetings` is symmetric: A is assigned B at
slot S iff B is assigned A at slot S. -/
theorem generate_meetings_symmetric
    (steps : List (String × List String × List String))
    (hnd : (steps.map (fun t => t.1)).Nodup) (a s b : String) :
    assigned (generate_meetings steps) a s b ↔ assigned (generate_meetings steps) b s a :=
  foldl_sym steps initState hnd sym_init (fresh_init steps) a s b

theorem generate_meetings_symmetric_witness :
    assigned (generate_meetings [("tue", ["u", "w"], ["u", "w"])]) "u" "tue" "w" ↔
      assigned (generate_meetings [("tue", ["u", "w"], ["u", "w"])]) "w" "tue" "u" :=
  generate_meetings_symmetric [("tue", ["u", "w"], ["u", "w"])] (by decide) "u" "tue" "w"

/-- C7: with a single candidate slot whose availability set is exactly
John and Jane, the matcher commits exactly one meeting, John with Jane at
that slot recorded in both directions, for every shuffle outcome; the
first commit attempt already succeeds, so the retry branch is not needed. -/
theorem generate_meetings_two_person_scenario
    (ts : List (String × List String)) (S : String) (ps s1 s2 : List String)
    (hcand : calculate_matches ts = [S])
    (hav : lookupA ts S = some ps)
    (hps : ps.Perm ["john.doe@example.com", "jane.doe@example.com"])
    (hs1 : s1.Perm ps) (hs2 : s2.Perm s1) :
    (tryPair initState S (s1.headD "") ((s1.drop 1).headD "")).2 = true ∧
      lookupA (generate_meetings [(S, s1, s2)]) "john.doe@example.com" =
        some [(S, "jane.doe@example.com")] ∧
      lookupA (generate_meetings [(S, s1, s2)]) "jane.doe@example.com" =
        some [(S, "john.doe@example.com")] ∧
      (generate_meetings [(S, s1, s2)]).length = 2 := by
  have h1 : s1.Perm ["john.doe@example.com", "jane.doe@example.com"] := hs1.trans hps
  rcases perm_pair_cases h1 with rfl | rfl
  · exact ⟨rfl, rfl, rfl, rfl⟩
  · exact ⟨rfl, rfl, rfl, rfl⟩

theorem generate_meetings_two_person_scenario_witness :
    (tryPair initState "Monday 10:00AM-10:15AM"
        ((["john.doe@example.com", "jane.doe@example.com"] : List String).headD "")
        (((["john.doe@example.com", "jane.doe@example.com"] : List String).drop 1).headD "")).2
        = true ∧
      lookupA (generate_meetings [("Monday 10:00AM-10:15AM",
          ["john.doe@example.com", "jane.doe@example.com"],
          ["john.doe@example.com", "jane.doe@example.com"])]) "john.doe@example.com" =
        some [("Monday 10:00AM-10:15AM", "jane.doe@example.com")] ∧
      lookupA (generate_meetings [("Monday 10:00AM-10:15AM",
          ["john.doe@example.com", "jane.doe@example.com"],
          ["john.doe@example.com", "jane.doe@example.com"])]) "jane.doe@example.com" =
        some [("Monday 10:00AM-10:15AM", "john.doe@example.com")] ∧
      (generate_meetings [("Monday 10:00AM-10:15AM",
          ["john.doe@example.com", "jane.doe@example.com"],
          ["john.doe@example.com", "jane.doe@example.com"])]).length = 2 :=
  generate_meetings_two_person_scenario
    [("Monday 10:00AM-10:15AM", ["john.doe@example.com", "jane.doe@example.com"])]
    "Monday 10:00AM-10:15AM"
    ["john.doe@example.com", "jane.doe@example.com"]
    ["john.doe@example.com", "jane.doe@example.com"]
    ["john.doe@example.com", "jane.doe@example.com"]
    (by decide) (by decide) (by decide) (by decide) (by decide)

/-- C9: the canonical pair key is not injective on unordered pairs when
identifiers contain underscores: the distinct pairs (a_b, c) and (a, b_c)
share the key a_b_c, so once the first pair is scheduled the per-pair
counter also blocks the second pair for the rest of the run. -/
theorem pairKey_collision_blocks_distinct_pair :
    pairKey "a_b" "c" = pairKey "a" "b_c" ∧
      (("a_b" : String) ≠ "a" ∧ ("a_b" : String) ≠ "b_c") ∧
      assigned (generate_meetings
        [("s1", ["a_b", "c"], ["a_b", "c"]), ("s2", ["a", "b_c"], ["a", "b_c"])])
        "a_b" "s1" "c" ∧
      lookupA (innerOf (generate_meetings
        [("s1", ["a_b", "c"], ["a_b", "c"]), ("s2", ["a", "b_c"], ["a", "b_c"])])
        "a") "s2" = none ∧
      lookupA (innerOf (generate_meetings
        [("s1", ["a_b", "c"], ["a_b", "c"]), ("s2", ["a", "b_c"], ["a", "b_c"])])
        "b_c") "s2" = none := by
  decide

/-- C10: probing the capacity guard materialises `defaultdict` keys, so the
meeting assignment can contain a participant key whose inner slot map is
empty: here `v` is only ever a failed trial `p0` (its partner `x` is
already at capacity) yet ends up as a key mapped to the empty dict. -/
theorem generate_meetings_empty_inner_key :
    lookupA (generate_meetings
      [("t1", ["x", "d1"], ["x", "d1"]), ("t2", ["x", "d2"], ["x", "d2"]),
       ("t3", ["x", "d3"], ["x", "d3"]), ("t4", ["v", "x"], ["v", "x"])]) "v" =
      some [] := by
  decide

/-! ## Parser bounds and round-trip facts -/

theorem finishClock_lt (h m : Nat) (cs : List Char) (r : Nat)
    (hr : finishClock h m cs = some r) (hh : h ≤ 12) (hm : m ≤ 59) : r < 1440 := by
  match cs with
  | [] => simp [finishClock] at hr
  | [a] => simp [finishClock] at hr
  | a :: p :: c :: t => simp [finishClock] at hr
  | [a, p] =>
    simp only [finishClock] at hr
    split_ifs at hr <;> simp at hr <;> omega

theorem orElse_eq_some (x y : Option Nat) (r : Nat) (h : (x <|> y) = some r) :
    x = some r ∨ (x = none ∧ y = some r) := by
  cases x <;> simp_all

theorem parseMinTail_lt (h : Nat) (cs : List Char) (r : Nat)
    (hr : parseMinTail h cs = some r) (hh : h ≤ 12) : r < 1440 := by
  match cs with
  | [] => simp [parseMinTail] at hr
  | [c1] =>
    simp only [parseMinTail] at hr
    split_ifs at hr with h1
    · exact finishClock_lt h (digitVal c1) [] r hr hh
        (by simp [isDigitChar] at h1; unfold digitVal; omega)
  | c1 :: c2 :: rest =>
    simp only [parseMinTail] at hr
    split_ifs at hr with h1 h2
    · obtain ⟨h1a, h1b, h1c⟩ := h1
      simp [isDigitChar] at h1c
      rcases orElse_eq_some _ _ _ hr with h' | ⟨-, h'⟩
      · exact finishClock_lt h _ rest r h' hh (by unfold digitVal; omega)
      · exact finishClock_lt h (digitVal c1) (c2 :: rest) r h' hh (by unfold digitVal; omega)
    · simp [isDigitChar] at h2
      exact finishClock_lt h (digitVal c1) (c2 :: rest) r hr hh (by unfold digitVal; omega)

theorem parseHourRest_lt (h : Nat) (cs : List Char) (r : Nat)
    (hr : parseHourRest h cs = some r) (hh : h ≤ 12) : r < 1440 := by
  unfold parseHourRest at hr
  split at hr
  · exact parseMinTail_lt h _ r hr hh
  · simp at hr

theorem parseClock_lt (cs : List Char) (r : Nat) (hr : parseClock cs = some r) : r < 1440 := by
  match cs with
  | [] => simp [parseClock] at hr
  | [c1] =>
    simp only [parseClock] at hr
    split_ifs at hr with h1
    · exact parseHourRest_lt _ [] r hr (by unfold digitVal; omega)
  | c1 :: c2 :: rest =>
    simp only [parseClock] at hr
    rcases orElse_eq_some _ _ _ hr with h' | ⟨-, h'⟩
    · split_ifs at h' with hA hB
      · obtain ⟨-, hA1, hA2⟩ := hA
        exact parseHourRest_lt _ rest r h' (by unfold digitVal; omega)
      · obtain ⟨-, hB1, hB2⟩ := hB
        exact parseHourRest_lt _ rest r h' (by unfold digitVal; omega)
    · split_ifs at h' with hC
      · obtain ⟨hC1, hC2⟩ := hC
        exact parseHourRest_lt _ (c2 :: rest) r h' (by unfold digitVal; omega)

theorem clock_roundtrip_all :
    ((List.range 1440).all (fun t => parseClock (fmt12 t).toList == some t)) = true := by
  decide

theorem clock_roundtrip {t : Nat} (h : t < 1440) : parseClock (fmt12 t).toList = some t := by
  have h2 := List.all_eq_true.mp clock_roundtrip_all t (List.mem_range.mpr h)
  simpa using h2

theorem fmt12_chars_all :
    ((List.range 1440).all (fun t =>
      ((fmt12 t).toList.all (fun c => !c.isWhitespace && !(c = '-'))) &&
        !(fmt12 t).toList.isEmpty)) = true := by
  decide

theorem fmt12_chars {t : Nat} (h : t < 1440) :
    (∀ c ∈ (fmt12 t).toList, c.isWhitespace = false) ∧
      (∀ c ∈ (fmt12 t).toList, c ≠ '-') ∧ (fmt12 t).toList ≠ [] := by
  have h2 := List.all_eq_true.mp fmt12_chars_all t (List.mem_range.mpr h)
  rw [Bool.and_eq_true] at h2
  obtain ⟨hall, hne⟩ := h2
  refine ⟨?_, ?_, ?_⟩
  · intro c hc
    have h3 := List.all_eq_true.mp hall c hc
    simp at h3
    exact h3.1
  · intro c hc
    have h3 := List.all_eq_true.mp hall c hc
    simp at h3
    exact h3.2
  · intro hnil
    rw [hnil] at hne
    simp at hne

theorem fmt12_add_day (d sm : Nat) (h : sm < 1440) : fmt12 (1440 * d + sm) = fmt12 sm := by
  have e1 : (1440 * d + sm) % 1440 = sm % 1440 := by omega
  have e2 : (1440 * d + sm) % 60 = sm % 60 := by omega
  unfold fmt12
  rw [e1, e2]

/-! ## Split composition lemmas -/

theorem splitWsAux_no_ws (l : List Char) (hl : ∀ c ∈ l, c.isWhitespace = false) :
    ∀ rest acc, splitWsAux (l ++ rest) acc = splitWsAux rest (l.reverse ++ acc) := by
  induction l with
  | nil => intro rest acc; simp
  | cons c cs ih =>
    intro rest acc
    have hc : c.isWhitespace = false := hl c (List.mem_cons_self _ _)
    have hcs : ∀ x ∈ cs, x.isWhitespace = false := fun x hx => hl x (List.mem_cons_of_mem _ hx)
    calc splitWsAux ((c :: cs) ++ rest) acc
        = splitWsAux (cs ++ rest) (c :: acc) := by
          simp only [List.cons_append, splitWsAux, hc, Bool.false_eq_true, if_false]
          rfl
      _ = splitWsAux rest (cs.reverse ++ (c :: acc)) := ih hcs rest (c :: acc)
      _ = splitWsAux rest ((c :: cs).reverse ++ acc) := by simp

theorem splitWsAux_ws_cons (c : Char) (hc : c.isWhitespace = true) (rest acc : List Char)
    (hacc : acc ≠ []) :
    splitWsAux (c :: rest) acc = acc.reverse :: splitWsAux rest [] := by
  simp [splitWsAux, hc, hacc]

theorem splitWsAux_nil_acc (acc : List Char) (h : acc ≠ []) :
    splitWsAux [] acc = [acc.reverse] := by
  simp [splitWsAux, h]

theorem splitWs_two (day times : List Char)
    (hday : ∀ c ∈ day, c.isWhitespace = false) (hdne : day ≠ [])
    (htimes : ∀ c ∈ times, c.isWhitespace = false) (htne : times ≠ []) :
    splitWsAux (day ++ ' ' :: times) [] = [day, times] := by
  rw [splitWsAux_no_ws day hday (' ' :: times) []]
  rw [splitWsAux_ws_cons ' ' (by decide) times (day.reverse ++ [])
    (by simpa using hdne)]
  rw [show times = times ++ [] by simp]
  rw [splitWsAux_no_ws times htimes [] []]
  rw [splitWsAux_nil_acc (times.reverse ++ []) (by simpa using htne)]
  simp

theorem splitDashAux_no_dash (l : List Char) (hl : ∀ c ∈ l, c ≠ '-') :
    ∀ rest acc, splitDashAux (l ++ rest) acc = splitDashAux rest (l.reverse ++ acc) := by
  induction l with
  | nil => intro rest acc; simp
  | cons c cs ih =>
    intro rest acc
    have hc : c ≠ '-' := hl c (List.mem_cons_self _ _)
    have hcs : ∀ x ∈ cs, x ≠ '-' := fun x hx => hl x (List.mem_cons_of_mem _ hx)
    calc splitDashAux ((c :: cs) ++ rest) acc
        = splitDashAux (cs ++ rest) (c :: acc) := by
          simp only [List.cons_append, splitDashAux, hc, if_false]
          rfl
      _ = splitDashAux rest (cs.reverse ++ (c :: acc)) := ih hcs rest (c :: acc)
      _ = splitDashAux rest ((c :: cs).reverse ++ acc) := by simp

theorem splitDash_two (t1 t2 : List Char)
    (h1 : ∀ c ∈ t1, c ≠ '-') (h2 : ∀ c ∈ t2, c ≠ '-') :
    splitDashAux (t1 ++ '-' :: t2) [] = [t1, t2] := by
  rw [splitDashAux_no_dash t1 h1 ('-' :: t2) []]
  show splitDashAux ('-' :: t2) (t1.reverse ++ []) = _
  simp only [splitDashAux, if_pos rfl]
  rw [show t2 = t2 ++ [] by simp]
  rw [splitDashAux_no_dash t2 h2 [] []]
  simp [splitDashAux]

/-! ## `convert_to_datetime`: construction and inversion -/

theorem convert_build (day t1 t2 : List Char) (d sm em : Nat)
    (hday_ws : ∀ c ∈ day, c.isWhitespace = false) (hday_ne : day ≠ [])
    (ht1_ws : ∀ c ∈ t1, c.isWhitespace = false) (ht1_ne : t1 ≠ [])
    (ht1_d : ∀ c ∈ t1, c ≠ '-')
    (ht2_ws : ∀ c ∈ t2, c.isWhitespace = false)
    (ht2_d : ∀ c ∈ t2, c ≠ '-')
    (hd : day_index (String.mk day) = some d)
    (h1 : parseClock t1 = some sm) (h2 : parseClock t2 = some em) :
    convert_to_datetime (String.mk (day ++ ' ' :: (t1 ++ '-' :: t2))) =
      some (1440 * d + sm, 1440 * d + em) := by
  unfold convert_to_datetime splitWs splitDash
  have htoList : (String.mk (day ++ ' ' :: (t1 ++ '-' :: t2))).toList
      = day ++ ' ' :: (t1 ++ '-' :: t2) := rfl
  rw [htoList]
  have htws : ∀ c ∈ t1 ++ '-' :: t2, c.isWhitespace = false := by
    intro c hc
    rcases List.mem_append.mp hc with h | h
    · exact ht1_ws c h
    · rcases List.mem_cons.mp h with rfl | h
      · decide
      · exact ht2_ws c h
  have htne : t1 ++ '-' :: t2 ≠ [] := by simp
  rw [splitWs_two day (t1 ++ '-' :: t2) hday_ws hday_ne htws htne]
  dsimp only
  rw [splitDash_two t1 t2 ht1_d ht2_d]
  dsimp only
  rw [hd]
  dsimp only
  rw [h1, h2]

theorem convert_inv (s : String) (a b : Nat)
    (h : convert_to_datetime s = some (a, b)) :
    ∃ d sm em, a = 1440 * d + sm ∧ b = 1440 * d + em ∧ d ≤ 4 ∧ sm < 1440 ∧ em < 1440 := by
  unfold convert_to_datetime at h
  split at h
  next x dayCs timesCs heq =>
    split at h
    next x2 stCs enCs heq2 =>
      cases hd : day_index (String.mk dayCs) with
      | none => rw [hd] at h; simp at h
      | some d =>
        rw [hd] at h
        cases h1 : parseClock stCs with
        | none => rw [h1] at h; simp at h
        | some sm =>
          cases h2 : parseClock enCs with
          | none => rw [h1, h2] at h; simp at h
          | some em =>
            rw [h1, h2] at h
            simp at h
            obtain ⟨ha, hb⟩ := h
            refine ⟨d, sm, em, ha.symm, hb.symm, ?_, parseClock_lt _ _ h1, parseClock_lt _ _ h2⟩
            unfold day_index at hd
            split at hd <;> simp_all <;> omega
    next => simp at h
  next => simp at h

theorem data_append (x y : String) : (x ++ y).data = x.data ++ y.data := by
  cases x; cases y; rfl

theorem concat_string_eq (day t1 t2 : String) :
    day ++ " " ++ t1 ++ "-" ++ t2
      = String.mk (day.toList ++ ' ' :: (t1.toList ++ '-' :: t2.toList)) := by
  refine string_toList_inj ?_
  show (day ++ " " ++ t1 ++ "-" ++ t2).data = _
  rw [data_append, data_append, data_append, data_append]
  show day.data ++ [' '] ++ t1.data ++ ['-'] ++ t2.data = _
  simp [List.append_assoc]

theorem day_index_dayName (d : Nat) (h : d ≤ 4) : day_index (dayName d) = some d := by
  interval_cases d <;> rfl

theorem dayName_chars (d : Nat) (h : d ≤ 4) :
    (∀ c ∈ (dayName d).toList, c.isWhitespace = false) ∧ (dayName d).toList ≠ [] := by
  interval_cases d <;> exact ⟨by decide, by decide⟩

/-! ## Claim theorems for the time-range parser and the slot grid -/

/-- C8: parsing a time-range string and reconstructing the string from the
returned range with the `strftime` format of source line 112 yields a
string that parses back to exactly the same pair of timestamps (same day,
hour and minute for both endpoints), even though the formatting (padding,
am/pm casing) may differ from the original. -/
theorem convert_to_datetime_roundtrip (s : String) (a b : Nat)
    (h : convert_to_datetime s = some (a, b)) :
    convert_to_datetime (dayName (a / 1440) ++ " " ++ fmt12 a ++ "-" ++ fmt12 b) =
      some (a, b) := by
  obtain ⟨d, sm, em, ha, hb, hd4, hsm, hem⟩ := convert_inv s a b h
  subst ha
  subst hb
  have hdiv : (1440 * d + sm) / 1440 = d := by omega
  have hfa : fmt12 (1440 * d + sm) = fmt12 sm := fmt12_add_day d sm hsm
  have hfb : fmt12 (1440 * d + em) = fmt12 em := fmt12_add_day d em hem
  rw [hdiv, hfa, hfb, concat_string_eq]
  obtain ⟨hsm_ws, hsm_d, hsm_ne⟩ := fmt12_chars hsm
  obtain ⟨hem_ws, hem_d, hem_ne⟩ := fmt12_chars hem
  obtain ⟨hday_ws, hday_ne⟩ := dayName_chars d hd4
  exact convert_build (dayName d).toList (fmt12 sm).toList (fmt12 em).toList d sm em
    hday_ws hday_ne hsm_ws hsm_ne hsm_d hem_ws hem_d
    (day_index_dayName d hd4) (clock_roundtrip hsm) (clock_roundtrip hem)

theorem convert_to_datetime_roundtrip_witness :
    convert_to_datetime (dayName (540 / 1440) ++ " " ++ fmt12 540 ++ "-" ++ fmt12 660) =
      some (540, 660) :=
  convert_to_datetime_roundtrip "Monday 9:00am-11:00am" 540 660 (by decide)

/-- C6 counterexample: the parser has no ordering check, so
`"Monday 11:00am-9:00am"` parses successfully to a range whose end
(9:00, minute 540) is not after its start (11:00, minute 660), refuting
"either start < end or the parser fails with InvalidRange". -/
theorem convert_to_datetime_range_counterexample :
    ∃ s a b, convert_to_datetime s = some (a, b) ∧ b ≤ a :=
  ⟨"Monday 11:00am-9:00am", 660, 540, by decide, by decide⟩

/-- C6 amended: whenever the weekday and both clock components parse, the
parser succeeds and returns exactly the two parsed endpoints, with no
constraint relating them — no `InvalidRange` failure path exists. -/
theorem convert_to_datetime_no_range_check (day t1 t2 : String) (d sm em : Nat)
    (hday_ws : ∀ c ∈ day.toList, c.isWhitespace = false) (hday_ne : day.toList ≠ [])
    (ht1_ws : ∀ c ∈ t1.toList, c.isWhitespace = false) (ht1_ne : t1.toList ≠ [])
    (ht1_d : ∀ c ∈ t1.toList, c ≠ '-')
    (ht2_ws : ∀ c ∈ t2.toList, c.isWhitespace = false)
    (ht2_d : ∀ c ∈ t2.toList, c ≠ '-')
    (hd : day_index day = some d)
    (h1 : parseClock t1.toList = some sm) (h2 : parseClock t2.toList = some em) :
    convert_to_datetime (day ++ " " ++ t1 ++ "-" ++ t2) = some (1440 * d + sm, 1440 * d + em) := by
  rw [concat_string_eq]
  exact convert_build day.toList t1.toList t2.toList d sm em
    hday_ws hday_ne ht1_ws ht1_ne ht1_d ht2_ws ht2_d hd h1 h2

theorem convert_to_datetime_no_range_check_witness :
    convert_to_datetime ("Monday" ++ " " ++ "11:00am" ++ "-" ++ "9:00am") = some (660, 540) :=
  convert_to_datetime_no_range_check "Monday" "11:00am" "9:00am" 0 660 540
    (by decide) (by decide) (by decide) (by decide) (by decide) (by decide) (by decide)
    (by decide) (by decide) (by decide)

/-- C5: the slot grid walk from Monday 9:00 to Friday 12:00 in 15-minute
ticks, keeping only ticks whose hour-of-day lies in [9, 17), emits exactly
(4 x 8 x 4) + (3 x 4) = 140 slot labels with no duplicates. -/
theorem generate_time_slots_140_nodup :
    generate_time_slots.length = 140 ∧ generate_time_slots.Nodup :=
  ⟨by decide, by decide⟩

/-! ## C4: availability mapper lemmas -/

theorem mem_addPerson (ps : List String) (p q : String) :
    q ∈ addPerson ps p ↔ q ∈ ps ∨ q = p := by
  unfold addPerson
  split
  next hp =>
    constructor
    · exact Or.inl
    · rintro (h | rfl)
      · exact h
      · exact hp
  next hp => simp

theorem windowLoop_some_mem (p : String) (sr : Nat × Nat) :
    ∀ (avail : List String) (ps ps' : List String),
      windowLoop p sr avail ps = some ps' →
      ∀ q, (q ∈ ps' ↔ q ∈ ps ∨ (q = p ∧ ∃ w ∈ avail, ∃ wr,
        convert_to_datetime w = some wr ∧ sr.1 < wr.2 ∧ sr.2 > wr.1)) := by
  intro avail
  induction avail with
  | nil =>
    intro ps ps' h q
    simp only [windowLoop, Option.some_inj] at h
    subst h
    simp
  | cons w ws ih =>
    intro ps ps' h q
    unfold windowLoop at h
    cases hw : convert_to_datetime w with
    | none => rw [hw] at h; simp at h
    | some wr =>
      rw [hw] at h
      have hiter := ih _ _ h q
      rw [hiter]
      by_cases hc : sr.1 < wr.2 ∧ sr.2 > wr.1
      · rw [if_pos hc]
        rw [mem_addPerson]
        constructor
        · rintro ((hq | hq) | ⟨hq, w', hw', wr', hcv, hc'⟩)
          · exact Or.inl hq
          · exact Or.inr ⟨hq, w, List.mem_cons_self _ _, wr, hw, hc.1, hc.2⟩
          · exact Or.inr ⟨hq, w', List.mem_cons_of_mem _ hw', wr', hcv, hc'⟩
        · rintro (hq | ⟨hq, w', hw', wr', hcv, hc'⟩)
          · exact Or.inl (Or.inl hq)
          · rcases List.mem_cons.mp hw' with rfl | hw''
            · exact Or.inl (Or.inr hq)
            · exact Or.inr ⟨hq, w', hw'', wr', hcv, hc'⟩
      · rw [if_neg hc]
        constructor
        · rintro (hq | ⟨hq, w', hw', wr', hcv, hc'⟩)
          · exact Or.inl hq
          · exact Or.inr ⟨hq, w', List.mem_cons_of_mem _ hw', wr', hcv, hc'⟩
        · rintro (hq | ⟨hq, w', hw', wr', hcv, hc'⟩)
          · exact Or.inl hq
          · rcases List.mem_cons.mp hw' with rfl | hw''
            · rw [hw] at hcv
              cases hcv
              exact absurd hc' hc
            · exact Or.inr ⟨hq, w', hw'', wr', hcv, hc'⟩

theorem personStep_some (p : String) (avail : List String) :
    ∀ (ts ts' : List (String × List String)), personStep p avail ts = some ts' →
      ∀ s : String,
        (lookupA ts s = none → lookupA ts' s = none) ∧
        (∀ ps0, lookupA ts s = some ps0 →
          ∃ sr ps', convert_to_datetime s = some sr ∧
            windowLoop p sr avail ps0 = some ps' ∧ lookupA ts' s = some ps') := by
  intro ts
  induction ts with
  | nil =>
    intro ts' h s
    simp only [personStep, Option.some_inj] at h
    subst h
    exact ⟨fun _ => rfl, fun ps0 h0 => by simp [lookupA] at h0⟩
  | cons e rest ih =>
    intro ts' h s
    unfold personStep at h
    split at h
    next => exact absurd h (by simp)
    next sr0 hsr =>
      split at h
      next => exact absurd h (by simp)
      next ps1 hwl =>
        split at h
        next => exact absurd h (by simp)
        next rest' hrest =>
          simp only [Option.some_inj] at h
          subst h
          by_cases hes : e.1 = s
          · constructor
            · intro h0
              rw [show lookupA (e :: rest) s = some e.2 from by
                  simp [lookupA, hes]] at h0
              cases h0
            · intro ps0 h0
              rw [show lookupA (e :: rest) s = some e.2 from by
                  simp [lookupA, hes]] at h0
              cases h0
              rw [hes] at hsr
              refine ⟨sr0, ps1, hsr, hwl, ?_⟩
              simp [lookupA, hes]
          · constructor
            · intro h0
              rw [show lookupA (e :: rest) s = lookupA rest s from by
                  simp [lookupA, hes]] at h0
              have := (ih rest' hrest s).1 h0
              simpa [lookupA, hes] using this
            · intro ps0 h0
              rw [show lookupA (e :: rest) s = lookupA rest s from by
                  simp [lookupA, hes]] at h0
              obtain ⟨sr, ps', ha, hb, hc⟩ := (ih rest' hrest s).2 ps0 h0
              exact ⟨sr, ps', ha, hb, by simpa [lookupA, hes] using hc⟩

theorem populate_some (p : String) :
    ∀ (sched : List (String × List String)) (ts res : List (String × List String)),
      populate_time_slots ts sched = some res →
      ∀ s ps0, lookupA ts s = some ps0 →
        ∃ ps, lookupA res s = some ps ∧
          ∀ q, (q ∈ ps ↔ q ∈ ps0 ∨ ∃ avail, (q, avail) ∈ sched ∧ ∃ w ∈ avail, ∃ wr sr,
            convert_to_datetime s = some sr ∧ convert_to_datetime w = some wr ∧
            sr.1 < wr.2 ∧ sr.2 > wr.1) := by
  intro sched
  induction sched with
  | nil =>
    intro ts res h s ps0 h0
    simp only [populate_time_slots, Option.some_inj] at h
    subst h
    exact ⟨ps0, h0, fun q => by simp⟩
  | cons pa rest ih =>
    intro ts res h s ps0 h0
    rw [show populate_time_slots ts (pa :: rest) =
        match personStep pa.1 pa.2 ts with
        | none => none
        | some ts' => populate_time_slots ts' rest from by
      cases pa
      rfl] at h
    split at h
    next => exact absurd h (by simp)
    next ts' hps =>
      obtain ⟨sr, ps1, hsr, hwl, hl1⟩ := (personStep_some pa.1 pa.2 ts ts' hps s).2 ps0 h0
      obtain ⟨ps, hres, hiff⟩ := ih ts' res h s ps1 hl1
      refine ⟨ps, hres, ?_⟩
      intro q
      rw [hiff q]
      have hw := windowLoop_some_mem pa.1 sr pa.2 ps0 ps1 hwl q
      rw [hw]
      constructor
      · rintro ((hq | ⟨hq, w', hw', wr', hcv, hc1, hc2⟩) | ⟨avail, hmem, w', hw', wr', sr', hsr', hcv, hc1, hc2⟩)
        · exact Or.inl hq
        · exact Or.inr ⟨pa.2, by rw [hq]; exact List.mem_cons_self _ _,
            w', hw', wr', sr, hsr, hcv, hc1, hc2⟩
        · exact Or.inr ⟨avail, List.mem_cons_of_mem _ hmem, w', hw', wr', sr', hsr', hcv, hc1, hc2⟩
      · rintro (hq | ⟨avail, hmem, w', hw', wr', sr', hsr', hcv, hc1, hc2⟩)
        · exact Or.inl (Or.inl hq)
        · rcases List.mem_cons.mp hmem with heq | hmem'
          · rw [hsr'] at hsr
            cases hsr
            have hq1 : q = pa.1 := by
              have := congrArg Prod.fst heq
              simpa using this
            have hav : avail = pa.2 := by
              have := congrArg Prod.snd heq
              simpa using this
            exact Or.inl (Or.inr ⟨hq1, w', by rw [← hav]; exact hw', wr', hcv, hc1, hc2⟩)
          · exact Or.inr ⟨avail, hmem', w', hw', wr', sr', hsr', hcv, hc1, hc2⟩

theorem populate_none (p : String) :
    ∀ (sched : List (String × List String)) (ts res : List (String × List String)),
      populate_time_slots ts sched = some res →
      ∀ s, lookupA ts s = none → lookupA res s = none := by
  intro sched
  induction sched with
  | nil =>
    intro ts res h s h0
    simp only [populate_time_slots, Option.some_inj] at h
    subst h
    exact h0
  | cons pa rest ih =>
    intro ts res h s h0
    rw [show populate_time_slots ts (pa :: rest) =
        match personStep pa.1 pa.2 ts with
        | none => none
        | some ts' => populate_time_slots ts' rest from by
      cases pa
      rfl] at h
    split at h
    next => exact absurd h (by simp)
    next ts' hps =>
      exact ih ts' res h s ((personStep_some pa.1 pa.2 ts ts' hps s).1 h0)

theorem lookupA_mem {α : Type} :
    ∀ (l : List (String × α)) (k : String) (v : α), lookupA l k = some v → (k, v) ∈ l := by
  intro l
  induction l with
  | nil => intro k v h; simp [lookupA] at h
  | cons e rest ih =>
    intro k v h
    unfold lookupA at h
    split at h
    next he =>
      cases h
      have hke : (k, e.2) = e := by
        rw [Prod.ext_iff]
        exact ⟨he.symm, rfl⟩
      rw [hke]
      exact List.mem_cons_self _ _
    next he => exact List.mem_cons_of_mem _ (ih k v h)

theorem mem_iff_lookupA {α : Type} :
    ∀ (l : List (String × α)), (l.map (fun e => e.1)).Nodup →
      ∀ (k : String) (v : α), ((k, v) ∈ l ↔ lookupA l k = some v) := by
  intro l
  induction l with
  | nil => intro _ k v; simp [lookupA]
  | cons e rest ih =>
    intro hnd k v
    simp only [List.map_cons, List.nodup_cons] at hnd
    obtain ⟨hnotin, hnd'⟩ := hnd
    unfold lookupA
    constructor
    · intro hmem
      rcases List.mem_cons.mp hmem with heq | hmem'
      · have h1 : e.1 = k := (congrArg Prod.fst heq).symm
        have h2 : e.2 = v := (congrArg Prod.snd heq).symm
        rw [if_pos h1, h2]
      · by_cases hek : e.1 = k
        · exfalso
          exact hnotin (by rw [hek]; exact List.mem_map.mpr ⟨(k, v), hmem', rfl⟩)
        · rw [if_neg hek]
          exact (ih hnd' k v).mp hmem'
    · intro hv
      split at hv
      next he =>
        cases hv
        have hke : (k, e.2) = e := by
          rw [Prod.ext_iff]
          exact ⟨he.symm, rfl⟩
        rw [hke]
        exact List.mem_cons_self _ _
      next he => exact List.mem_cons_of_mem _ ((ih hnd' k v).mpr hv)

/-- C4: in the availability map built by `populate_time_slots` from a slot
grid (all of whose sets start empty) and a schedule (a dict, so participant
keys are distinct), a participant appears in a slot's set iff one of their
declared windows satisfies the half-open overlap test
`slot.start < window.end AND slot.end > window.start`; in particular a
window that merely touches the slot boundary does not count. -/
theorem populate_time_slots_overlap_iff
    (ts sched res : List (String × List String))
    (hrun : populate_time_slots ts sched = some res)
    (hempty : ∀ e ∈ ts, e.2 = ([] : List String))
    (hnd : (sched.map (fun e => e.1)).Nodup)
    (s : String) (ps : List String) (hs : lookupA res s = some ps)
    (sr : Nat × Nat) (hsr : convert_to_datetime s = some sr)
    (p : String) (avail : List String) (hp : lookupA sched p = some avail) :
    p ∈ ps ↔ ∃ w ∈ avail, ∃ wr, convert_to_datetime w = some wr ∧
      sr.1 < wr.2 ∧ sr.2 > wr.1 := by
  cases h0 : lookupA ts s with
  | none =>
    rw [populate_none p sched ts res hrun s h0] at hs
    cases hs
  | some ps0 =>
    obtain ⟨ps', hres, hiff⟩ := populate_some p sched ts res hrun s ps0 h0
    rw [hres] at hs
    cases hs
    have hps0 : ps0 = [] := hempty (s, ps0) (lookupA_mem ts s ps0 h0)
    rw [hiff p]
    subst hps0
    simp only [List.not_mem_nil, false_or]
    constructor
    · rintro ⟨avail', hmem, w', hw', wr', sr', hsr', hcv, hc1, hc2⟩
      rw [mem_iff_lookupA sched hnd p avail'] at hmem
      rw [hp] at hmem
      cases hmem
      rw [hsr'] at hsr
      cases hsr
      exact ⟨w', hw', wr', hcv, hc1, hc2⟩
    · rintro ⟨w', hw', wr', hcv, hc1, hc2⟩
      exact ⟨avail, (mem_iff_lookupA sched hnd p avail).mpr hp, w', hw', wr', sr, hsr,
        hcv, hc1, hc2⟩

theorem populate_time_slots_overlap_iff_witness :
    ("john" : String) ∈ (["john"] : List String) ∧
      (("john" : String) ∈ ([] : List String) ↔
        ∃ w ∈ (["Monday 9:00am-11:00am"] : List String), ∃ wr,
          convert_to_datetime w = some wr ∧ (660, 675).1 < wr.2 ∧ (660, 675).2 > wr.1) :=
  ⟨by decide,
    populate_time_slots_overlap_iff
      [("Monday 09:00AM-09:15AM", []), ("Monday 11:00AM-11:15AM", [])]
      [("john", ["Monday 9:00am-11:00am"])]
      [("Monday 09:00AM-09:15AM", ["john"]), ("Monday 11:00AM-11:15AM", [])]
      (by decide) (by decide) (by decide)
      "Monday 11:00AM-11:15AM" [] (by decide)
      (660, 675) (by decide)
      "john" ["Monday 9:00am-11:00am"] (by decide)⟩

example : convert_to_datetime "Monday 9:00am-11:00am" = some (540, 660) := by decide
example : convert_to_datetime "Friday 12:00pm-1:30pm" = some (6480, 6570) := by decide
example : convert_to_datetime "Saturday 9:00am-11:00am" = none := by decide
example : convert_to_datetime "Monday 13:00am-2:00pm" = none := by decide
example : slotLabel 540 555 = "Monday 09:00AM-09:15AM" := by decide
example : convert_to_datetime "Monday 09:00AM-09:15AM" = some (540, 555) := by decide

-- concrete evaluations pinning the embedding's behaviour
example :
    generate_meetings [("s", ["j", "a"], ["j", "a"])] =
      [("j", [("s", "a")]), ("a", [("s", "j")])] := by decide

example :
    generate_meetings
      [("s1", ["a_b", "c"], ["a_b", "c"]), ("s2", ["a", "b_c"], ["a", "b_c"])] =
      [("a_b", [("s1", "c")]), ("c", [("s1", "a_b")]), ("a", []), ("b_c", [])] := by
  decide

example :
    populate_time_slots [("Monday 09:00AM-09:15AM", [])]
      [("john", ["Monday 9:00am-11:00am"]), ("jane", ["Monday 10:00am-12:00pm"])] =
      some [("Monday 09:00AM-09:15AM", ["john"])] := by decide

end MeshMeeting
